import Mathlib

/-!
Shallow embedding of the question-extraction and paper-download logic of the
`ag_ppr` repository (src/tools/extractor.py and src/tools/scraper.py), together
with proofs of the specified properties.

Strings are modelled as `List Char`.  The Python string primitives used by the
code (`str.split()`, `str.strip()`, `str.lower()`, `' '.join`, substring `in`)
are embedded on the ASCII/Latin-1 fragment that the repository operates on:
the Unicode-only extensions of Python whitespace, digit and case tables are
not modelled.
-/

/-- Python whitespace class (`str.split()` / `str.strip()` / regex `\s`),
restricted to the Latin-1 range. -/
def pyIsSpace (c : Char) : Bool :=
  c == ' ' || c == '\t' || c == '\n' || c == '\r' || c == '\x0b' || c == '\x0c' ||
  c == '\u001c' || c == '\u001d' || c == '\u001e' || c == '\u001f' || c == '\u0085'

/-- Regex `\d` (ASCII fragment). -/
def pyIsDigit (c : Char) : Bool :=
  '0' ≤ c && c ≤ '9'

/-- Character class `[A-Z]` under `re.IGNORECASE` (ASCII fragment). -/
def isAsciiLetter (c : Char) : Bool :=
  ('A' ≤ c && c ≤ 'Z') || ('a' ≤ c && c ≤ 'z')

/-- Python `str.lower()` on one character (ASCII fragment). -/
def pyToLower (c : Char) : Char :=
  if 'A' ≤ c ∧ c ≤ 'Z' then Char.ofNat (c.toNat + 32) else c

/-- Python `str.lower()`. -/
def pyLower (s : List Char) : List Char :=
  s.map pyToLower

/-- Python substring test `needle in hay`. -/
def pyContains : List Char → List Char → Bool
  | [], needle => needle.isEmpty
  | c :: t, needle => needle.isPrefixOf (c :: t) || pyContains t needle

/-- Accumulator loop for `pySplit`; `acc` is the current word, reversed. -/
def pySplitGo : List Char → List Char → List (List Char)
  | [], acc => if acc.isEmpty then [] else [acc.reverse]
  | c :: rest, acc =>
    if pyIsSpace c then
      (if acc.isEmpty then pySplitGo rest [] else acc.reverse :: pySplitGo rest [])
    else pySplitGo rest (c :: acc)

/-- Python `str.split()` with no argument: split on runs of whitespace,
dropping empty fields. -/
def pySplit (s : List Char) : List (List Char) :=
  pySplitGo s []

/-- Python `' '.join(words)`. -/
def joinSpace : List (List Char) → List Char
  | [] => []
  | [w] => w
  | w :: ws => w ++ ' ' :: joinSpace ws

/-- The whitespace-collapsing step `' '.join(question.split())` of
`QuestionExtractor._clean_question` (extractor.py line 128). -/
def collapseWs (s : List Char) : List Char :=
  joinSpace (pySplit s)

/-- Python `str.strip()` with no argument. -/
def pyStrip (l : List Char) : List Char :=
  List.reverse (List.dropWhile pyIsSpace (List.reverse (List.dropWhile pyIsSpace l)))

/-- Python `text.split('\n')` (extractor.py line 100): split on each newline,
keeping empty fields. -/
def pyLines : List Char → List (List Char)
  | [] => [[]]
  | c :: rest =>
    let ls := pyLines rest
    if c = '\n' then [] :: ls
    else (c :: ls.headD []) :: ls.tail

/-- Case-insensitive literal-prefix matching used by the regex fragments
`Question` and `Q` under `re.IGNORECASE`; `pat` is given lowercased.  Returns
the remainder of `s` after the prefix when it matches. -/
def stripCaseInsensPrefix : List Char → List Char → Option (List Char)
  | [], s => some s
  | _ :: _, [] => none
  | p :: ps, c :: cs => if pyToLower c = p then stripCaseInsensPrefix ps cs else none

/-!
Matchers for the five question patterns of
`QuestionExtractor._extract_questions_basic` (extractor.py lines 92-98), under
`re.match(pattern, line, re.MULTILINE | re.IGNORECASE)`: a match is required
at the start of the line only.  Each matcher decides existence of a match,
including the splits a backtracking engine would explore.
-/

/-- Regex tail `.+\?` matched at the start of the input (a later `?` preceded
by at least one non-newline character). -/
def findQ : List Char → Bool
  | [] => false
  | c :: rest => c == '?' || (c != '\n' && findQ rest)

/-- Regex `.+\?` at the start of the input. -/
def matchDotPlusQ : List Char → Bool
  | [] => false
  | c :: rest => c != '\n' && findQ rest

/-- Regex `\s*.+\?` at the start of the input (all splits of `\s*` tried). -/
def matchSpacesDotQ : List Char → Bool
  | [] => false
  | c :: rest => matchDotPlusQ (c :: rest) || (pyIsSpace c && matchSpacesDotQ rest)

/-- Regex `\s*.+` at the start of the input. -/
def matchSpacesDotPlus : List Char → Bool
  | [] => false
  | c :: rest => c != '\n' || (pyIsSpace c && matchSpacesDotPlus rest)

/-- Regex `[:\.]?\s*.+` at the start of the input. -/
def matchOptPunct (v : List Char) : Bool :=
  matchSpacesDotPlus v ||
    (match v with
     | c :: rest => (c == ':' || c == '.') && matchSpacesDotPlus rest
     | [] => false)

/-- Regex `\d*[:\.]?\s*.+` at the start of the input. -/
def matchAfterDigits : List Char → Bool
  | [] => false
  | c :: rest => (pyIsDigit c && matchAfterDigits rest) || matchOptPunct (c :: rest)

/-- Regex `\d+[:\.]?\s*.+` at the start of the input. -/
def matchDigitsOptTail : List Char → Bool
  | [] => false
  | c :: rest => pyIsDigit c && matchAfterDigits rest

/-- Pattern `^\s*\d+[\.\)]\s*.+\?` (extractor.py line 93).  `\s*` and `\d+`
are forced here: shorter greedy choices put a space where `\d` must match or a
digit where `[\.\)]` must match, so no backtracking split is lost. -/
def matchP1 (s : List Char) : Bool :=
  let t := s.dropWhile pyIsSpace
  let ds := t.takeWhile pyIsDigit
  !ds.isEmpty &&
    (match t.dropWhile pyIsDigit with
     | c :: rest => (c == '.' || c == ')') && matchSpacesDotQ rest
     | [] => false)

/-- Pattern `^\s*[A-Z]\)\s*.+\?` (extractor.py line 94), `[A-Z]` taken
case-insensitively. -/
def matchP2 (s : List Char) : Bool :=
  match s.dropWhile pyIsSpace with
  | a :: b :: rest => isAsciiLetter a && b == ')' && matchSpacesDotQ rest
  | _ => false

/-- Pattern `^\s*Question\s+\d+[:\.]?\s*.+` (extractor.py line 95),
`Question` taken case-insensitively. -/
def matchP3 (s : List Char) : Bool :=
  match stripCaseInsensPrefix ("question".data) (s.dropWhile pyIsSpace) with
  | none => false
  | some u => !(u.takeWhile pyIsSpace).isEmpty && matchDigitsOptTail (u.dropWhile pyIsSpace)

/-- Pattern `^\s*Q\d+[:\.]?\s*.+` (extractor.py line 96), `Q` taken
case-insensitively. -/
def matchP4 (s : List Char) : Bool :=
  match s.dropWhile pyIsSpace with
  | c :: rest => (c == 'Q' || c == 'q') && matchDigitsOptTail rest
  | [] => false

/-- Regex `\s*$` under `re.MULTILINE`: optional whitespace up to the end of
the input or a newline. -/
def matchEndAnchor : List Char → Bool
  | [] => true
  | c :: rest => c == '\n' || (pyIsSpace c && matchEndAnchor rest)

/-- Regex tail `\?\s*$` after at least one `.`-matched character. -/
def findQEnd : List Char → Bool
  | [] => false
  | c :: rest => (c == '?' && matchEndAnchor rest) || (c != '\n' && findQEnd rest)

/-- Pattern `^.+\?\s*$` (extractor.py line 97). -/
def matchP5 : List Char → Bool
  | [] => false
  | c :: rest => c != '\n' && findQEnd rest

/-- The pattern loop of `_extract_questions_basic` (extractor.py lines
107-113) appends at most once per line and breaks at the first matching
pattern, so a line contributes exactly when some pattern matches. -/
def matchesAnyPattern (s : List Char) : Bool :=
  matchP1 s || matchP2 s || matchP3 s || matchP4 s || matchP5 s

/-!
The four prefix-stripping substitutions of `QuestionExtractor._clean_question`
(extractor.py lines 130-133): `re.sub(p, '', question, flags=re.IGNORECASE)`
for `p` among `^\d+[\.\)]\s*`, `^[A-Z]\)\s*`, `^Question\s+\d+[:\.]?\s*`,
`^Q\d+[:\.]?\s*`, applied in that order.  Each pattern is anchored, so
`re.sub` removes at most one leftmost match; greedy choices are forced as the
adjacent character classes are disjoint, and trailing optional parts cannot
fail, so the deterministic greedy transcription below is exact.
-/

/-- Substitution pattern `^\d+[\.\)]\s*` (extractor.py line 131). -/
def stripNumPrefix (s : List Char) : List Char :=
  if (s.takeWhile pyIsDigit).isEmpty then s
  else
    match s.dropWhile pyIsDigit with
    | c :: rest => if c = '.' ∨ c = ')' then rest.dropWhile pyIsSpace else s
    | [] => s

/-- Substitution pattern `^[A-Z]\)\s*` with `re.IGNORECASE`
(extractor.py line 131). -/
def stripLetterPrefix (s : List Char) : List Char :=
  match s with
  | a :: b :: rest => if isAsciiLetter a ∧ b = ')' then rest.dropWhile pyIsSpace else s
  | _ => s

/-- Substitution pattern `^Question\s+\d+[:\.]?\s*` with `re.IGNORECASE`
(extractor.py line 131). -/
def stripQuestionNumPrefix (s : List Char) : List Char :=
  match stripCaseInsensPrefix ("question".data) s with
  | none => s
  | some t =>
    if (t.takeWhile pyIsSpace).isEmpty then s
    else
      let u := t.dropWhile pyIsSpace
      if (u.takeWhile pyIsDigit).isEmpty then s
      else
        match u.dropWhile pyIsDigit with
        | c :: w => if c = ':' ∨ c = '.' then w.dropWhile pyIsSpace else (c :: w).dropWhile pyIsSpace
        | [] => []

/-- Substitution pattern `^Q\d+[:\.]?\s*` with `re.IGNORECASE`
(extractor.py line 131). -/
def stripQNumPrefix (s : List Char) : List Char :=
  match s with
  | c :: t =>
    if c = 'Q' ∨ c = 'q' then
      if (t.takeWhile pyIsDigit).isEmpty then s
      else
        match t.dropWhile pyIsDigit with
        | d :: w => if d = ':' ∨ d = '.' then w.dropWhile pyIsSpace else (d :: w).dropWhile pyIsSpace
        | [] => []
    else s
  | [] => []

/-- `QuestionExtractor._clean_question` (extractor.py lines 125-135):
collapse whitespace, strip the four prefix forms in order, trim. -/
def cleanQuestion (s : List Char) : List Char :=
  pyStrip (stripQNumPrefix (stripQuestionNumPrefix (stripLetterPrefix (stripNumPrefix (collapseWs s)))))

/-- One matched prefix form at the head of a string: a strip pattern matches
exactly when the corresponding substitution changes the string (every match
of the four anchored patterns is non-empty). -/
def hasPrefixForm (t : List Char) : Bool :=
  decide (stripNumPrefix t ≠ t) || decide (stripLetterPrefix t ≠ t) ||
  decide (stripQuestionNumPrefix t ≠ t) || decide (stripQNumPrefix t ≠ t)

/-- The per-line candidate production of `_extract_questions_basic`
(extractor.py lines 102-113): strip the line, reject short lines, test the
patterns, clean, keep non-empty cleaned strings longer than 15 characters. -/
def lineCandidates (raw : List Char) : List (List Char) :=
  let line := pyStrip raw
  if line.length < 10 then []
  else if matchesAnyPattern line then
    let cleaned := cleanQuestion line
    if cleaned ≠ [] ∧ 15 < cleaned.length then [cleaned] else []
  else []

/-- All candidates of one text, in line order. -/
def questionCandidates (text : List Char) : List (List Char) :=
  (pyLines text).flatMap lineCandidates

/-- The duplicate-removal loop of `_extract_questions_basic` (extractor.py
lines 115-122); `seen` plays the role of the membership set. -/
def removeDupAux {α : Type} [DecidableEq α] (seen : List α) : List α → List α
  | [] => []
  | q :: rest =>
    if q ∈ seen then removeDupAux seen rest
    else q :: removeDupAux (q :: seen) rest

/-- Order-preserving deduplication (extractor.py lines 115-123). -/
def removeDuplicates {α : Type} [DecidableEq α] (l : List α) : List α :=
  removeDupAux [] l

/-- `QuestionExtractor._extract_questions_basic` (extractor.py lines 87-123). -/
def extractQuestionsBasic (text : List Char) : List (List Char) :=
  removeDuplicates (questionCandidates text)

/-- The hardcoded related-term list of `_filter_by_topic`
(extractor.py line 153). -/
def mathTerms : List (List Char) :=
  [("matrix".data), ("vector".data), ("equation".data), ("system".data)]

/-- One iteration of the loop of `_filter_by_topic` (extractor.py lines
145-155): append on topic-token overlap, then append on the algebra rule when
not already present. -/
def filterStep (topicWords : List (List Char)) (topicLower : List Char)
    (filtered : List (List Char)) (question : List Char) : List (List Char) :=
  let questionLower := pyLower question
  let f1 := if topicWords.any (fun w => pyContains questionLower w) then filtered ++ [question] else filtered
  if pyContains topicLower ("algebra".data) && mathTerms.any (fun t => pyContains questionLower t) then
    if question ∈ f1 then f1 else f1 ++ [question]
  else f1

/-- `QuestionExtractor._filter_by_topic` (extractor.py lines 137-157). -/
def filterByTopic (questions : List (List Char)) (topic : List Char) : List (List Char) :=
  if topic = [] then questions
  else questions.foldl (filterStep (pySplit (pyLower topic)) (pyLower topic)) []

/-- Index of the first occurrence of an element in a list (0-based; length of
the list when absent), used to state the first-occurrence ordering of the
deduplication pass. -/
def firstIdx {α : Type} [DecidableEq α] : List α → α → Nat
  | [], _ => 0
  | x :: xs, a => if x = a then 0 else firstIdx xs a + 1

/-- The retention condition of `_filter_by_topic` for one question, as the
code computes it (extractor.py lines 149 and 153). -/
def TopicKeeps (topic q : List Char) : Prop :=
  (∃ w ∈ pySplit (pyLower topic), pyContains (pyLower q) w = true) ∨
  (pyContains (pyLower topic) ("algebra".data) = true ∧
    ∃ t ∈ mathTerms, pyContains (pyLower q) t = true)

instance (topic q : List Char) : Decidable (TopicKeeps topic q) := by
  unfold TopicKeeps
  infer_instance

/-- The acceptance test of `_enhance_with_llm` (extractor.py line 188):
`result != "UNRELATED" and len(result) > 10`. -/
def enhanceDecision (result : List Char) : Bool :=
  result != ("UNRELATED".data) && decide (10 < result.length)

/-- Outcome of the enhancement loop: normal return value, or the NameError
raised by `time.sleep(0.5)` (extractor.py line 191; `time` is never imported
in extractor.py). -/
inductive LoopResult where
  | ok : List (List Char) → LoopResult
  | nameError : LoopResult
deriving DecidableEq

/-- The loop of `_enhance_with_llm` (extractor.py lines 168-191); `responses`
are the per-question model replies (`response.choices[0].message.content`).
Each iteration strips the reply, conditionally appends it, then evaluates
`time.sleep(0.5)`, which raises NameError because `time` is not imported. -/
def enhanceLoop : List (List Char) → List (List Char) → List (List Char) → LoopResult
  | [], _, acc => .ok acc
  | _ :: _, r :: _, acc =>
    let result := pyStrip r
    let _acc1 := if enhanceDecision result then acc ++ [result] else acc
    .nameError
  | _ :: _, [], _ => .nameError

/-- `QuestionExtractor._enhance_with_llm` (extractor.py lines 159-198): the
blanket `except Exception` (line 196) returns the original question list when
the loop raises. -/
def enhanceWithLLM (questions responses : List (List Char)) : List (List Char) :=
  match enhanceLoop questions responses [] with
  | .ok enhanced => enhanced
  | .nameError => questions

/-- An HTTP response as used by `ExamScraper._download_paper`:
the `content-type` header (`''` when absent) and the body bytes. -/
structure HttpResponse where
  contentType : List Char
  body : List Nat
deriving DecidableEq

/-- What `_download_paper` does with one candidate. -/
inductive DownloadOutcome where
  | alreadyExists
  | saved
  | rejected
  | failed
deriving DecidableEq

/-- `ExamScraper._download_paper` (scraper.py lines 109-153): skip existing
files; a failed request (`none`) is caught and yields no file; otherwise
reject unless the lowercased content-type contains `pdf` or the body has at
least 1000 bytes, else persist. -/
def downloadPaper (fileExists : Bool) (resp : Option HttpResponse) : DownloadOutcome :=
  if fileExists then .alreadyExists
  else
    match resp with
    | none => .failed
    | some r =>
      if !pyContains (pyLower r.contentType) ("pdf".data) && decide (r.body.length < 1000) then
        .rejected
      else .saved

/-- Checker for collapsed strings: `normChk b t` holds when every whitespace
character of `t` is a single space not at the end, and, when `b` is set, not
at the start either.  `' '.join(s.split())` outputs are exactly `[]` and the
strings accepted with `b = true`. -/
def normChk : Bool → List Char → Bool
  | b, [] => !b
  | b, c :: rest =>
    if pyIsSpace c then !b && (c == ' ') && normChk true rest
    else normChk false rest

/-- A string left fixed by whitespace collapsing. -/
def Normalized (t : List Char) : Prop :=
  t = [] ∨ normChk true t = true

/-! Lemmas about the deduplication loop. -/

theorem mem_removeDupAux {α : Type} [DecidableEq α] (x : α) (l : List α) :
    ∀ seen, x ∈ removeDupAux seen l ↔ x ∈ l ∧ x ∉ seen := by
  induction l with
  | nil => intro seen; simp [removeDupAux]
  | cons q rest ih =>
    intro seen
    by_cases hq : q ∈ seen
    · rw [removeDupAux, if_pos hq, ih seen]
      constructor
      · rintro ⟨h1, h2⟩
        exact ⟨List.mem_cons_of_mem _ h1, h2⟩
      · rintro ⟨h1, h2⟩
        rcases List.mem_cons.mp h1 with h | h
        · exact absurd (h ▸ hq) h2
        · exact ⟨h, h2⟩
    · rw [removeDupAux, if_neg hq]
      rw [List.mem_cons, ih (q :: seen)]
      constructor
      · rintro (h | ⟨h1, h2⟩)
        · subst h; exact ⟨List.mem_cons_self _ _, hq⟩
        · rw [List.mem_cons, not_or] at h2
          exact ⟨List.mem_cons_of_mem _ h1, h2.2⟩
      · rintro ⟨h1, h2⟩
        by_cases hxq : x = q
        · exact Or.inl hxq
        · rcases List.mem_cons.mp h1 with h | h
          · exact absurd h hxq
          · refine Or.inr ⟨h, ?_⟩
            rw [List.mem_cons, not_or]
            exact ⟨hxq, h2⟩

theorem nodup_removeDupAux {α : Type} [DecidableEq α] (l : List α) :
    ∀ seen, (removeDupAux seen l).Nodup := by
  induction l with
  | nil => intro seen; simp [removeDupAux]
  | cons q rest ih =>
    intro seen
    by_cases hq : q ∈ seen
    · rw [removeDupAux, if_pos hq]; exact ih seen
    · rw [removeDupAux, if_neg hq]
      refine List.nodup_cons.mpr ⟨?_, ih (q :: seen)⟩
      intro hmem
      exact ((mem_removeDupAux q rest (q :: seen)).mp hmem).2 (List.mem_cons_self q seen)

theorem sublist_removeDupAux {α : Type} [DecidableEq α] (l : List α) :
    ∀ seen, (removeDupAux seen l).Sublist l := by
  induction l with
  | nil => intro seen; simp [removeDupAux]
  | cons q rest ih =>
    intro seen
    by_cases hq : q ∈ seen
    · rw [removeDupAux, if_pos hq]
      exact (ih seen).cons q
    · rw [removeDupAux, if_neg hq]
      exact (ih (q :: seen)).cons₂ q

theorem pairwise_imp_mem {α : Type} {R S : α → α → Prop} :
    ∀ {l : List α}, (∀ a b, a ∈ l → b ∈ l → R a b → S a b) → l.Pairwise R → l.Pairwise S := by
  intro l
  induction l with
  | nil => intro _ _; exact List.Pairwise.nil
  | cons x xs ih =>
    intro h hp
    rcases List.pairwise_cons.mp hp with ⟨h1, h2⟩
    refine List.pairwise_cons.mpr ⟨?_, ?_⟩
    · intro b hb
      exact h x b (List.mem_cons_self _ _) (List.mem_cons_of_mem _ hb) (h1 b hb)
    · exact ih (fun a b ha hb => h a b (List.mem_cons_of_mem _ ha) (List.mem_cons_of_mem _ hb)) h2

theorem firstIdx_cons_self {α : Type} [DecidableEq α] (q : α) (l : List α) :
    firstIdx (q :: l) q = 0 := by
  simp [firstIdx]

theorem firstIdx_cons_ne {α : Type} [DecidableEq α] (q b : α) (l : List α)
    (h : q ≠ b) : firstIdx (q :: l) b = firstIdx l b + 1 := by
  simp [firstIdx, h]

theorem pairwise_idx_removeDupAux {α : Type} [DecidableEq α] (l : List α) :
    ∀ seen, (removeDupAux seen l).Pairwise (fun a b => firstIdx l a < firstIdx l b) := by
  induction l with
  | nil => intro seen; simp [removeDupAux]
  | cons q rest ih =>
    intro seen
    by_cases hq : q ∈ seen
    · rw [removeDupAux, if_pos hq]
      refine pairwise_imp_mem ?_ (ih seen)
      intro a b ha hb hab
      have haq : q ≠ a := fun h => ((mem_removeDupAux a rest seen).mp ha).2 (h ▸ hq)
      have hbq : q ≠ b := fun h => ((mem_removeDupAux b rest seen).mp hb).2 (h ▸ hq)
      rw [firstIdx_cons_ne q a rest haq, firstIdx_cons_ne q b rest hbq]
      exact Nat.succ_lt_succ hab
    · rw [removeDupAux, if_neg hq]
      refine List.pairwise_cons.mpr ⟨?_, ?_⟩
      · intro b hb
        have hbq : q ≠ b := fun h =>
          ((mem_removeDupAux b rest (q :: seen)).mp hb).2 (h ▸ List.mem_cons_self q seen)
        rw [firstIdx_cons_self, firstIdx_cons_ne q b rest hbq]
        exact Nat.succ_pos _
      · refine pairwise_imp_mem ?_ (ih (q :: seen))
        intro a b ha hb hab
        have haq : q ≠ a := fun h =>
          ((mem_removeDupAux a rest (q :: seen)).mp ha).2 (h ▸ List.mem_cons_self q seen)
        have hbq : q ≠ b := fun h =>
          ((mem_removeDupAux b rest (q :: seen)).mp hb).2 (h ▸ List.mem_cons_self q seen)
        rw [firstIdx_cons_ne q a rest haq, firstIdx_cons_ne q b rest hbq]
        exact Nat.succ_lt_succ hab

theorem mem_removeDuplicates {α : Type} [DecidableEq α] (x : α) (l : List α) :
    x ∈ removeDuplicates l ↔ x ∈ l := by
  rw [removeDuplicates, mem_removeDupAux]
  simp

theorem nodup_removeDuplicates {α : Type} [DecidableEq α] (l : List α) :
    (removeDuplicates l).Nodup :=
  nodup_removeDupAux l []

theorem sublist_removeDuplicates {α : Type} [DecidableEq α] (l : List α) :
    (removeDuplicates l).Sublist l :=
  sublist_removeDupAux l []

theorem pairwise_idx_removeDuplicates {α : Type} [DecidableEq α] (l : List α) :
    (removeDuplicates l).Pairwise (fun a b => firstIdx l a < firstIdx l b) :=
  pairwise_idx_removeDupAux l []

/-! Lemmas about substring containment and the topic filter. -/

theorem pyContains_nil_needle : ∀ l : List Char, pyContains l [] = true := by
  intro l
  cases l with
  | nil => rfl
  | cons c t => simp [pyContains, List.isPrefixOf]

theorem isPrefixOf_append_right {needle : List Char} :
    ∀ {hay : List Char} (ext : List Char), needle.isPrefixOf hay = true →
      needle.isPrefixOf (hay ++ ext) = true := by
  induction needle with
  | nil => intro hay ext _; simp [List.isPrefixOf]
  | cons c cs ih =>
    intro hay ext h
    cases hay with
    | nil => simp [List.isPrefixOf] at h
    | cons d ds =>
      simp only [List.cons_append, List.isPrefixOf, Bool.and_eq_true] at h ⊢
      exact ⟨h.1, ih ext h.2⟩

theorem pyContains_append_right {hay needle : List Char} (ext : List Char)
    (h : pyContains hay needle = true) : pyContains (hay ++ ext) needle = true := by
  induction hay with
  | nil =>
    have hn : needle = [] := by simpa [pyContains, List.isEmpty_iff] using h
    subst hn
    exact pyContains_nil_needle ext
  | cons c t ih =>
    simp only [pyContains, Bool.or_eq_true] at h
    simp only [List.cons_append, pyContains, Bool.or_eq_true]
    rcases h with h | h
    · exact Or.inl (isPrefixOf_append_right ext h)
    · exact Or.inr (ih h)

theorem mem_filterStep (tw : List (List Char)) (tl : List Char)
    (acc : List (List Char)) (x q : List Char) :
    q ∈ filterStep tw tl acc x ↔
      q ∈ acc ∨ (q = x ∧
        ((∃ w ∈ tw, pyContains (pyLower x) w = true) ∨
         (pyContains tl ("algebra".data) = true ∧
           ∃ t ∈ mathTerms, pyContains (pyLower x) t = true))) := by
  simp only [filterStep]
  by_cases hA : tw.any (fun w => pyContains (pyLower x) w) = true
  · by_cases hB : (pyContains tl ("algebra".data) &&
        mathTerms.any (fun t => pyContains (pyLower x) t)) = true
    · rw [if_pos hA, if_pos hB,
        if_pos (List.mem_append_right acc (List.mem_singleton.mpr rfl))]
      rw [List.any_eq_true] at hA
      simp [List.mem_append, hA]
    · rw [if_pos hA, if_neg hB]
      rw [List.any_eq_true] at hA
      simp [List.mem_append, hA]
  · rw [if_neg hA]
    by_cases hB : (pyContains tl ("algebra".data) &&
        mathTerms.any (fun t => pyContains (pyLower x) t)) = true
    · rw [if_pos hB]
      rw [Bool.and_eq_true, List.any_eq_true] at hB
      rw [List.any_eq_true] at hA
      by_cases hx : x ∈ acc
      · rw [if_pos hx]
        constructor
        · intro h; exact Or.inl h
        · rintro (h | ⟨rfl, _⟩)
          · exact h
          · exact hx
      · rw [if_neg hx]
        simp [List.mem_append, hA, hB]
    · rw [if_neg hB]
      rw [Bool.and_eq_true] at hB
      rw [List.any_eq_true] at hA
      constructor
      · intro h; exact Or.inl h
      · rintro (h | ⟨rfl, hk | hk⟩)
        · exact h
        · exact absurd hk hA
        · rw [List.any_eq_true] at hB
          exact absurd ⟨hk.1, hk.2⟩ hB

theorem mem_foldl_filterStep (tw : List (List Char)) (tl : List Char)
    (l : List (List Char)) :
    ∀ acc q, q ∈ l.foldl (filterStep tw tl) acc ↔
      q ∈ acc ∨ (q ∈ l ∧
        ((∃ w ∈ tw, pyContains (pyLower q) w = true) ∨
         (pyContains tl ("algebra".data) = true ∧
           ∃ t ∈ mathTerms, pyContains (pyLower q) t = true))) := by
  induction l with
  | nil => intro acc q; simp
  | cons x rest ih =>
    intro acc q
    rw [List.foldl_cons, ih, mem_filterStep]
    constructor
    · rintro ((h | ⟨rfl, hk⟩) | ⟨h1, h2⟩)
      · exact Or.inl h
      · exact Or.inr ⟨List.mem_cons_self _ _, hk⟩
      · exact Or.inr ⟨List.mem_cons_of_mem _ h1, h2⟩
    · rintro (h | ⟨h1, h2⟩)
      · exact Or.inl (Or.inl h)
      · rcases List.mem_cons.mp h1 with h | h
        · exact Or.inl (Or.inr ⟨h, h ▸ h2⟩)
        · exact Or.inr ⟨h, h2⟩

theorem mem_filterByTopic (qs : List (List Char)) (topic q : List Char)
    (h : topic ≠ []) :
    q ∈ filterByTopic qs topic ↔ q ∈ qs ∧ TopicKeeps topic q := by
  rw [filterByTopic, if_neg h, mem_foldl_filterStep]
  simp [TopicKeeps]

/-! Structural lemmas about `pySplit`. -/

theorem length_dropWhile_le' {α : Type} (p : α → Bool) :
    ∀ l : List α, (l.dropWhile p).length ≤ l.length := by
  intro l
  induction l with
  | nil => simp
  | cons a l ih =>
    rw [List.dropWhile_cons]
    by_cases h : p a = true
    · simp only [h, if_true]
      exact Nat.le_succ_of_le ih
    · simp [h]

theorem pySplit_nil : pySplit [] = [] := rfl

theorem pySplitGo_word (s : List Char) :
    ∀ acc : List Char, acc ≠ [] →
      pySplitGo s acc =
        (acc.reverse ++ s.takeWhile (fun d => !pyIsSpace d)) ::
          pySplit (s.dropWhile (fun d => !pyIsSpace d)) := by
  induction s with
  | nil =>
    intro acc hacc
    simp [pySplitGo, pySplit, List.isEmpty_iff, hacc]
  | cons c rest ih =>
    intro acc hacc
    by_cases hc : pyIsSpace c = true
    · have hisEmpty : acc.isEmpty = false := by
        cases acc with
        | nil => exact absurd rfl hacc
        | cons a as => rfl
      rw [List.takeWhile_cons, List.dropWhile_cons]
      simp only [hc, Bool.not_true, Bool.false_eq_true, if_false, List.append_nil]
      show pySplitGo (c :: rest) acc = acc.reverse :: pySplit (c :: rest)
      simp only [pySplitGo, pySplit, hc, if_true, hisEmpty, Bool.false_eq_true, if_false]
      simp
    · have hc' : pyIsSpace c = false := by simpa using hc
      simp only [pySplitGo, hc', Bool.false_eq_true, if_false]
      rw [ih (c :: acc) (by simp)]
      rw [List.takeWhile_cons, List.dropWhile_cons]
      simp only [hc', Bool.not_false, if_true, List.reverse_cons]
      simp [List.append_assoc]

theorem pySplit_cons (c : Char) (rest : List Char) :
    pySplit (c :: rest) =
      if pyIsSpace c then pySplit rest
      else (c :: rest.takeWhile (fun d => !pyIsSpace d)) ::
        pySplit (rest.dropWhile (fun d => !pyIsSpace d)) := by
  by_cases hc : pyIsSpace c = true
  · simp [pySplit, pySplitGo, hc]
  · have hc' : pyIsSpace c = false := by simpa using hc
    simp only [pySplit, pySplitGo, hc', Bool.false_eq_true, if_false]
    rw [pySplitGo_word rest [c] (by simp)]
    simp [pySplit]

theorem takeWhile_ns_append (b : List Char) :
    ∀ a : List Char,
      (a ++ ' ' :: b).takeWhile (fun d => !pyIsSpace d) =
        a.takeWhile (fun d => !pyIsSpace d) := by
  intro a
  induction a with
  | nil => simp [List.takeWhile_cons, pyIsSpace]
  | cons c r ih =>
    simp only [List.cons_append, List.takeWhile_cons]
    by_cases hc : (!pyIsSpace c) = true <;> simp [hc, ih]

theorem dropWhile_ns_append (b : List Char) :
    ∀ a : List Char,
      (a ++ ' ' :: b).dropWhile (fun d => !pyIsSpace d) =
        a.dropWhile (fun d => !pyIsSpace d) ++ ' ' :: b := by
  intro a
  induction a with
  | nil => simp [List.dropWhile_cons, pyIsSpace]
  | cons c r ih =>
    simp only [List.cons_append, List.dropWhile_cons]
    by_cases hc : (!pyIsSpace c) = true <;> simp [hc, ih]

theorem pySplit_append_space_aux :
    ∀ (n : Nat) (a : List Char), a.length ≤ n → ∀ b,
      pySplit (a ++ ' ' :: b) = pySplit a ++ pySplit b := by
  intro n
  induction n with
  | zero =>
    intro a ha b
    have h0 : a = [] := List.length_eq_zero.mp (Nat.le_zero.mp ha)
    subst h0
    rw [List.nil_append, pySplit_nil, List.nil_append, pySplit_cons]
    simp [pyIsSpace]
  | succ n ih =>
    intro a ha b
    cases a with
    | nil =>
      rw [List.nil_append, pySplit_nil, List.nil_append, pySplit_cons]
      simp [pyIsSpace]
    | cons c rest =>
      rw [List.cons_append, pySplit_cons, pySplit_cons]
      by_cases hc : pyIsSpace c = true
      · simp only [hc, if_true]
        exact ih rest (by simpa using Nat.le_of_succ_le_succ ha) b
      · simp only [hc, Bool.false_eq_true, if_false]
        rw [takeWhile_ns_append, dropWhile_ns_append]
        rw [ih (rest.dropWhile (fun d => !pyIsSpace d))
          (Nat.le_trans (length_dropWhile_le' _ rest) (Nat.le_of_succ_le_succ ha)) b]
        simp [List.cons_append]

theorem pySplit_append_space (a b : List Char) :
    pySplit (a ++ ' ' :: b) = pySplit a ++ pySplit b :=
  pySplit_append_space_aux a.length a (Nat.le_refl _) b

theorem pySplit_words_aux :
    ∀ (n : Nat) (s : List Char), s.length ≤ n →
      ∀ w ∈ pySplit s, w ≠ [] ∧ ∀ c ∈ w, pyIsSpace c = false := by
  intro n
  induction n with
  | zero =>
    intro s hs w hw
    have h0 : s = [] := List.length_eq_zero.mp (Nat.le_zero.mp hs)
    subst h0
    simp [pySplit_nil] at hw
  | succ n ih =>
    intro s hs w hw
    cases s with
    | nil => simp [pySplit_nil] at hw
    | cons c rest =>
      rw [pySplit_cons] at hw
      by_cases hc : pyIsSpace c = true
      · rw [if_pos hc] at hw
        exact ih rest (Nat.le_of_succ_le_succ hs) w hw
      · have hc' : pyIsSpace c = false := by simpa using hc
        rw [if_neg hc] at hw
        rcases List.mem_cons.mp hw with h | h
        · subst h
          refine ⟨by simp, ?_⟩
          intro d hd
          rcases List.mem_cons.mp hd with h | h
          · exact h ▸ hc'
          · have := List.mem_takeWhile_imp h
            simpa using this
        · exact ih (rest.dropWhile (fun d => !pyIsSpace d))
            (Nat.le_trans (length_dropWhile_le' _ rest) (Nat.le_of_succ_le_succ hs)) w h

theorem pyToLower_space : pyToLower ' ' = ' ' := by decide

theorem pyLower_append_space (topic w : List Char) :
    pyLower (topic ++ ' ' :: w) = pyLower topic ++ ' ' :: pyLower w := by
  simp [pyLower, List.map_append, List.map_cons, pyToLower_space]

/-- C1: for a non-empty topic, the filter retains a question exactly when some
whitespace-split lowercase token of the topic is a substring of the lowercased
question, or the lowercased topic contains the substring algebra and the
lowercased question contains matrix, vector, equation or system. -/
theorem topicFilter_retains_iff (qs : List (List Char)) (topic q : List Char)
    (h : topic ≠ []) :
    q ∈ filterByTopic qs topic ↔ q ∈ qs ∧
      ((∃ w ∈ pySplit (pyLower topic), pyContains (pyLower q) w = true) ∨
       (pyContains (pyLower topic) ("algebra".data) = true ∧
         ∃ t ∈ mathTerms, pyContains (pyLower q) t = true)) := by
  rw [mem_filterByTopic qs topic q h]
  exact Iff.rfl

/-- Witness for C1 at a concrete input: a question containing matrix is
retained for the topic Linear Algebra despite zero direct token overlap. -/
theorem topicFilter_retains_iff_witness :
    (("Linear Algebra".data : List Char) ≠ []) ∧
    ("what is the determinant of a 2x2 matrix?".data) ∈
      filterByTopic [("what is the determinant of a 2x2 matrix?".data)]
        ("Linear Algebra".data) :=
  ⟨by decide, (topicFilter_retains_iff
    [("what is the determinant of a 2x2 matrix?".data)]
    ("Linear Algebra".data)
    ("what is the determinant of a 2x2 matrix?".data) (by decide)).mpr (by decide)⟩

/-- C2: the deduplication pass returns exactly the distinct strings of its
input, without repetition, as a sublist of the input ordered by first
occurrence. -/
theorem extractor_dedup_correct (l : List (List Char)) :
    (removeDuplicates l).Nodup ∧ (∀ x, x ∈ removeDuplicates l ↔ x ∈ l) ∧
    (removeDuplicates l).Sublist l ∧
    (removeDuplicates l).Pairwise (fun a b => firstIdx l a < firstIdx l b) :=
  ⟨nodup_removeDuplicates l, fun x => mem_removeDuplicates x l,
    sublist_removeDuplicates l, pairwise_idx_removeDuplicates l⟩

/-- C6 counterexample: extending a topic by one whitespace-delimited token can
remove a previously retained question, because the empty topic bypasses the
filter entirely while the extended topic does not. -/
theorem topicFilter_extension_counterexample :
    filterByTopic [("when did the roman empire fall?".data)] [] =
      [("when did the roman empire fall?".data)] ∧
    filterByTopic [("when did the roman empire fall?".data)]
      ([] ++ ' ' :: ("chemistry".data)) = [] := by
  constructor
  · rfl
  · decide

/-- C6 amended: for a non-empty original topic, appending one further
whitespace-delimited token never removes a retained question. -/
theorem topicFilter_extension_monotone (qs : List (List Char)) (topic w q : List Char)
    (h : topic ≠ []) (hq : q ∈ filterByTopic qs topic) :
    q ∈ filterByTopic qs (topic ++ ' ' :: w) := by
  rw [mem_filterByTopic qs topic q h] at hq
  rw [mem_filterByTopic qs _ q (by simp)]
  refine ⟨hq.1, ?_⟩
  rcases hq.2 with hA | hB
  · left
    rcases hA with ⟨tok, htok, hcont⟩
    refine ⟨tok, ?_, hcont⟩
    rw [pyLower_append_space, pySplit_append_space]
    exact List.mem_append_left _ htok
  · right
    refine ⟨?_, hB.2⟩
    rw [pyLower_append_space]
    exact pyContains_append_right _ hB.1

/-- Witness for the amended C6 at a concrete input. -/
theorem topicFilter_extension_monotone_witness :
    (("algebra".data : List Char) ≠ []) ∧
    ("solve the matrix equation".data) ∈
      filterByTopic [("solve the matrix equation".data)] ("algebra".data) ∧
    ("solve the matrix equation".data) ∈
      filterByTopic [("solve the matrix equation".data)]
        (("algebra".data) ++ ' ' :: ("history".data)) :=
  ⟨by decide, by decide,
    topicFilter_extension_monotone [("solve the matrix equation".data)]
      ("algebra".data) ("history".data) ("solve the matrix equation".data)
      (by decide) (by decide)⟩

/-- C7 (code bug): an UNRELATED model reply does not exclude its question;
the missing `time` import makes the loop raise NameError, the broad except
returns the original list, and the question survives, although the intended
per-reply test (line 188) evaluates to false on UNRELATED. -/
theorem enhance_unrelated_retained :
    enhanceWithLLM [("what is the rank of a matrix?".data)] [("UNRELATED".data)] =
      [("what is the rank of a matrix?".data)] ∧
    enhanceDecision (pyStrip ("UNRELATED".data)) = false := by
  exact ⟨rfl, by decide⟩

/-- C8: the line 1. What is the determinant of a 2x2 matrix? passes the first
pattern, is normalized by removing the numeric prefix, and is retained by the
topic filter for the topic Linear Algebra. -/
theorem extraction_end_to_end_determinant :
    matchP1 ("1. What is the determinant of a 2x2 matrix?".data) = true ∧
    cleanQuestion ("1. What is the determinant of a 2x2 matrix?".data) =
      ("What is the determinant of a 2x2 matrix?".data) ∧
    filterByTopic (extractQuestionsBasic ("1. What is the determinant of a 2x2 matrix?".data))
        ("Linear Algebra".data) =
      [("What is the determinant of a 2x2 matrix?".data)] :=
  ⟨by decide, by decide, by decide⟩

/-- C9: a fetched response is persisted exactly when its lowercased
content-type contains pdf or its body is at least 1000 bytes, and rejected
exactly when both checks fail. -/
theorem downloadPaper_saved_iff (r : HttpResponse) :
    (downloadPaper false (some r) = DownloadOutcome.saved ↔
      (pyContains (pyLower r.contentType) ("pdf".data) = true ∨ 1000 ≤ r.body.length)) ∧
    (downloadPaper false (some r) = DownloadOutcome.rejected ↔
      (pyContains (pyLower r.contentType) ("pdf".data) = false ∧ r.body.length < 1000)) := by
  have hred : downloadPaper false (some r) =
      (if (!pyContains (pyLower r.contentType) ("pdf".data) &&
            decide (r.body.length < 1000)) = true
       then DownloadOutcome.rejected else DownloadOutcome.saved) := rfl
  cases hp : pyContains (pyLower r.contentType) ("pdf".data) with
  | true =>
    have hout : downloadPaper false (some r) = DownloadOutcome.saved := by
      rw [hred, hp]; simp
    rw [hout]
    refine ⟨⟨fun _ => Or.inl rfl, fun _ => rfl⟩, ?_, ?_⟩
    · intro h; exact absurd h (by decide)
    · rintro ⟨h, _⟩; exact absurd h (by decide)
  | false =>
    cases hl : decide (r.body.length < 1000) with
    | true =>
      have hlt : r.body.length < 1000 := of_decide_eq_true hl
      have hout : downloadPaper false (some r) = DownloadOutcome.rejected := by
        rw [hred, hp, hl]; simp
      rw [hout]
      refine ⟨⟨?_, ?_⟩, fun _ => ⟨rfl, hlt⟩, fun _ => rfl⟩
      · intro h; exact absurd h (by decide)
      · rintro (h | h)
        · exact absurd h (by decide)
        · omega
    | false =>
      have hge : ¬ r.body.length < 1000 := of_decide_eq_false hl
      have hout : downloadPaper false (some r) = DownloadOutcome.saved := by
        rw [hred, hp, hl]; simp
      rw [hout]
      refine ⟨⟨fun _ => Or.inr (by omega), fun _ => rfl⟩, ?_, ?_⟩
      · intro h; exact absurd h (by decide)
      · rintro ⟨_, h⟩; exact absurd h hge

/-- C10: the empty topic string makes the filter the identity. -/
theorem topicFilter_empty_identity (qs : List (List Char)) :
    filterByTopic qs [] = qs := rfl

/-! Lemmas about the prefix-stripping substitutions (claims C3 and C5). -/

theorem stripCaseInsensPrefix_some :
    ∀ (pat s u : List Char), stripCaseInsensPrefix pat s = some u →
      ∃ p0, s = p0 ++ u ∧ p0.length = pat.length := by
  intro pat
  induction pat with
  | nil =>
    intro s u h
    simp only [stripCaseInsensPrefix, Option.some.injEq] at h
    exact ⟨[], by simp [h], rfl⟩
  | cons p ps ih =>
    intro s u h
    cases s with
    | nil => exact Option.noConfusion h
    | cons c cs =>
      simp only [stripCaseInsensPrefix] at h
      by_cases hc : pyToLower c = p
      · rw [if_pos hc] at h
        rcases ih cs u h with ⟨p0, hp0, hlen⟩
        exact ⟨c :: p0, by simp [hp0], by simp [hlen]⟩
      · rw [if_neg hc] at h
        exact Option.noConfusion h

theorem stripNumPrefix_cases (t : List Char) :
    stripNumPrefix t = t ∨
      ∃ pre u, pre ≠ [] ∧ t = pre ++ u ∧ stripNumPrefix t = u.dropWhile pyIsSpace := by
  unfold stripNumPrefix
  by_cases hds : ((t.takeWhile pyIsDigit).isEmpty : Bool) = true
  · rw [if_pos hds]; exact Or.inl rfl
  · rw [if_neg hds]
    cases hd : t.dropWhile pyIsDigit with
    | nil => exact Or.inl rfl
    | cons c rest =>
      dsimp only
      by_cases hc : c = '.' ∨ c = ')'
      · rw [if_pos hc]
        right
        refine ⟨t.takeWhile pyIsDigit ++ [c], rest, by simp, ?_, rfl⟩
        rw [List.append_assoc, List.singleton_append, ← hd,
          List.takeWhile_append_dropWhile]
      · rw [if_neg hc]; exact Or.inl rfl

theorem stripLetterPrefix_cases (t : List Char) :
    stripLetterPrefix t = t ∨
      ∃ pre u, pre ≠ [] ∧ t = pre ++ u ∧ stripLetterPrefix t = u.dropWhile pyIsSpace := by
  cases t with
  | nil => exact Or.inl rfl
  | cons a t1 =>
    cases t1 with
    | nil => exact Or.inl rfl
    | cons b rest =>
      by_cases h : isAsciiLetter a = true ∧ b = ')'
      · right
        refine ⟨[a, b], rest, by simp, by simp, ?_⟩
        simp only [stripLetterPrefix, if_pos h]
      · left
        simp only [stripLetterPrefix, if_neg h]

theorem stripQuestionNumPrefix_cases (t : List Char) :
    stripQuestionNumPrefix t = t ∨
      ∃ pre u, pre ≠ [] ∧ t = pre ++ u ∧
        stripQuestionNumPrefix t = u.dropWhile pyIsSpace := by
  unfold stripQuestionNumPrefix
  cases hq : stripCaseInsensPrefix ("question".data) t with
  | none => exact Or.inl rfl
  | some u0 =>
    dsimp only
    rcases stripCaseInsensPrefix_some _ t u0 hq with ⟨p0, hp0, hp0len⟩
    have hp0ne : p0 ≠ [] := by
      intro h0
      rw [h0] at hp0len
      exact absurd hp0len.symm (by decide)
    by_cases h1 : ((u0.takeWhile pyIsSpace).isEmpty : Bool) = true
    · rw [if_pos h1]; exact Or.inl rfl
    · rw [if_neg h1]
      by_cases h2 : (((u0.dropWhile pyIsSpace).takeWhile pyIsDigit).isEmpty : Bool) = true
      · rw [if_pos h2]; exact Or.inl rfl
      · rw [if_neg h2]
        cases hv : (u0.dropWhile pyIsSpace).dropWhile pyIsDigit with
        | nil =>
          right
          refine ⟨t, [], ?_, by simp, by simp⟩
          rw [hp0]
          simp [hp0ne]
        | cons c w =>
          dsimp only
          have hu0 : u0 = u0.takeWhile pyIsSpace ++
              ((u0.dropWhile pyIsSpace).takeWhile pyIsDigit ++ (c :: w)) := by
            rw [← hv, List.takeWhile_append_dropWhile, List.takeWhile_append_dropWhile]
          by_cases hc : c = ':' ∨ c = '.'
          · rw [if_pos hc]
            right
            refine ⟨p0 ++ (u0.takeWhile pyIsSpace ++
              ((u0.dropWhile pyIsSpace).takeWhile pyIsDigit ++ [c])), w, by simp [hp0ne], ?_, rfl⟩
            rw [hp0]
            conv_lhs => rw [hu0]
            simp [List.append_assoc]
          · rw [if_neg hc]
            right
            refine ⟨p0 ++ (u0.takeWhile pyIsSpace ++
              (u0.dropWhile pyIsSpace).takeWhile pyIsDigit), c :: w, by simp [hp0ne], ?_, rfl⟩
            rw [hp0]
            conv_lhs => rw [hu0]
            simp [List.append_assoc]

theorem stripQNumPrefix_cases (t : List Char) :
    stripQNumPrefix t = t ∨
      ∃ pre u, pre ≠ [] ∧ t = pre ++ u ∧ stripQNumPrefix t = u.dropWhile pyIsSpace := by
  cases t with
  | nil => exact Or.inl rfl
  | cons c0 t1 =>
    by_cases hc0 : c0 = 'Q' ∨ c0 = 'q'
    · by_cases h2 : ((t1.takeWhile pyIsDigit).isEmpty : Bool) = true
      · left
        simp only [stripQNumPrefix, if_pos hc0, if_pos h2]
      · have ht1 : t1 = t1.takeWhile pyIsDigit ++ t1.dropWhile pyIsDigit :=
          (List.takeWhile_append_dropWhile _ _).symm
        cases hv : t1.dropWhile pyIsDigit with
        | nil =>
          right
          refine ⟨c0 :: t1, [], by simp, by simp, ?_⟩
          simp only [stripQNumPrefix, if_pos hc0, if_neg h2, hv]
          simp
        | cons d w =>
          by_cases hd : d = ':' ∨ d = '.'
          · right
            refine ⟨c0 :: (t1.takeWhile pyIsDigit ++ [d]), w, by simp, ?_, ?_⟩
            · rw [List.cons_append, List.append_assoc, List.singleton_append, ← hv]
              rw [← ht1]
            · simp only [stripQNumPrefix, if_pos hc0, if_neg h2, hv, if_pos hd]
          · right
            refine ⟨c0 :: t1.takeWhile pyIsDigit, d :: w, by simp, ?_, ?_⟩
            · rw [List.cons_append, ← hv, ← ht1]
            · simp only [stripQNumPrefix, if_pos hc0, if_neg h2, hv, if_neg hd]
    · left
      simp only [stripQNumPrefix, if_neg hc0]

theorem pyStrip_length_le (l : List Char) : (pyStrip l).length ≤ l.length := by
  unfold pyStrip
  rw [List.length_reverse]
  calc (List.dropWhile pyIsSpace (List.reverse (List.dropWhile pyIsSpace l))).length
      ≤ (List.reverse (List.dropWhile pyIsSpace l)).length := length_dropWhile_le' _ _
    _ = (List.dropWhile pyIsSpace l).length := List.length_reverse _
    _ ≤ l.length := length_dropWhile_le' _ _

theorem strip_length_le_of_cases {f : List Char → List Char} {t : List Char}
    (h : f t = t ∨ ∃ pre u, pre ≠ [] ∧ t = pre ++ u ∧ f t = u.dropWhile pyIsSpace) :
    (f t).length ≤ t.length := by
  rcases h with h | ⟨pre, u, hne, ht, hres⟩
  · rw [h]
  · rw [hres, ht, List.length_append]
    have := length_dropWhile_le' pyIsSpace u
    omega

theorem strip_length_lt_of_cases {f : List Char → List Char} {t : List Char}
    (h : f t = t ∨ ∃ pre u, pre ≠ [] ∧ t = pre ++ u ∧ f t = u.dropWhile pyIsSpace)
    (hne : f t ≠ t) : (f t).length < t.length := by
  rcases h with h | ⟨pre, u, hpre, ht, hres⟩
  · exact absurd h hne
  · rw [hres, ht, List.length_append]
    have h1 := length_dropWhile_le' pyIsSpace u
    have h2 : 0 < pre.length := List.length_pos.mpr hpre
    omega

theorem stripNumPrefix_length_le (t : List Char) :
    (stripNumPrefix t).length ≤ t.length :=
  strip_length_le_of_cases (stripNumPrefix_cases t)

theorem stripLetterPrefix_length_le (t : List Char) :
    (stripLetterPrefix t).length ≤ t.length :=
  strip_length_le_of_cases (stripLetterPrefix_cases t)

theorem stripQuestionNumPrefix_length_le (t : List Char) :
    (stripQuestionNumPrefix t).length ≤ t.length :=
  strip_length_le_of_cases (stripQuestionNumPrefix_cases t)

theorem stripQNumPrefix_length_le (t : List Char) :
    (stripQNumPrefix t).length ≤ t.length :=
  strip_length_le_of_cases (stripQNumPrefix_cases t)

/-- C3 counterexample: the matched line below carries exactly one applicable
prefix form (the numeric one), yet normalization does not stop after
stripping it: the letter form exposed by the first strip is stripped as well,
so the result differs from the single-strip result. -/
theorem clean_two_prefix_forms_counterexample :
    matchP1 ("1. a) What is the capital of France?".data) = true ∧
    stripNumPrefix (collapseWs ("1. a) What is the capital of France?".data)) =
      ("a) What is the capital of France?".data) ∧
    stripLetterPrefix (collapseWs ("1. a) What is the capital of France?".data)) =
      collapseWs ("1. a) What is the capital of France?".data) ∧
    stripQuestionNumPrefix (collapseWs ("1. a) What is the capital of France?".data)) =
      collapseWs ("1. a) What is the capital of France?".data) ∧
    stripQNumPrefix (collapseWs ("1. a) What is the capital of France?".data)) =
      collapseWs ("1. a) What is the capital of France?".data) ∧
    cleanQuestion ("1. a) What is the capital of France?".data) =
      ("What is the capital of France?".data) ∧
    cleanQuestion ("1. a) What is the capital of France?".data) ≠
      pyStrip (stripNumPrefix (collapseWs ("1. a) What is the capital of France?".data))) :=
  ⟨by decide, by decide, by decide, by decide, by decide, by decide, by decide⟩

/-- C3 amended: after whitespace collapsing, normalization applies the four
prefix substitutions once each in a fixed order and trims; each substitution
removes at most one leading occurrence of its form, but a strip can expose a
further form, so more than one form may be removed in total.  When the
collapsed line carries at least one prefix form, at least one strip fires. -/
theorem clean_strips_prefix_forms (s : List Char)
    (h : hasPrefixForm (collapseWs s) = true) :
    cleanQuestion s =
      pyStrip (stripQNumPrefix (stripQuestionNumPrefix
        (stripLetterPrefix (stripNumPrefix (collapseWs s))))) ∧
    (cleanQuestion s).length < (collapseWs s).length := by
  refine ⟨rfl, ?_⟩
  have hclean : cleanQuestion s =
      pyStrip (stripQNumPrefix (stripQuestionNumPrefix
        (stripLetterPrefix (stripNumPrefix (collapseWs s))))) := rfl
  set t := collapseWs s with ht
  unfold hasPrefixForm at h
  simp only [Bool.or_eq_true, decide_eq_true_eq] at h
  rw [hclean]
  by_cases h1 : stripNumPrefix t = t
  · rw [h1]
    by_cases h2 : stripLetterPrefix t = t
    · rw [h2]
      by_cases h3 : stripQuestionNumPrefix t = t
      · rw [h3]
        by_cases h4 : stripQNumPrefix t = t
        · exfalso
          rcases h with ((h | h) | h) | h
          · exact h h1
          · exact h h2
          · exact h h3
          · exact h h4
        · calc (pyStrip (stripQNumPrefix t)).length
              ≤ (stripQNumPrefix t).length := pyStrip_length_le _
            _ < t.length := strip_length_lt_of_cases (stripQNumPrefix_cases t) h4
      · calc (pyStrip (stripQNumPrefix (stripQuestionNumPrefix t))).length
            ≤ (stripQNumPrefix (stripQuestionNumPrefix t)).length := pyStrip_length_le _
          _ ≤ (stripQuestionNumPrefix t).length := stripQNumPrefix_length_le _
          _ < t.length := strip_length_lt_of_cases (stripQuestionNumPrefix_cases t) h3
    · calc (pyStrip (stripQNumPrefix (stripQuestionNumPrefix (stripLetterPrefix t)))).length
          ≤ (stripQNumPrefix (stripQuestionNumPrefix (stripLetterPrefix t))).length :=
            pyStrip_length_le _
        _ ≤ (stripQuestionNumPrefix (stripLetterPrefix t)).length := stripQNumPrefix_length_le _
        _ ≤ (stripLetterPrefix t).length := stripQuestionNumPrefix_length_le _
        _ < t.length := strip_length_lt_of_cases (stripLetterPrefix_cases t) h2
  · calc (pyStrip (stripQNumPrefix (stripQuestionNumPrefix
          (stripLetterPrefix (stripNumPrefix t))))).length
        ≤ (stripQNumPrefix (stripQuestionNumPrefix
            (stripLetterPrefix (stripNumPrefix t)))).length := pyStrip_length_le _
      _ ≤ (stripQuestionNumPrefix (stripLetterPrefix (stripNumPrefix t))).length :=
          stripQNumPrefix_length_le _
      _ ≤ (stripLetterPrefix (stripNumPrefix t)).length := stripQuestionNumPrefix_length_le _
      _ ≤ (stripNumPrefix t).length := stripLetterPrefix_length_le _
      _ < t.length := strip_length_lt_of_cases (stripNumPrefix_cases t) h1

/-- Witness for the amended C3 at a concrete input. -/
theorem clean_strips_prefix_forms_witness :
    hasPrefixForm (collapseWs ("1. a) What is the capital of France?".data)) = true ∧
    cleanQuestion ("1. a) What is the capital of France?".data) =
      pyStrip (stripQNumPrefix (stripQuestionNumPrefix
        (stripLetterPrefix (stripNumPrefix (collapseWs ("1. a) What is the capital of France?".data)))))) ∧
    (cleanQuestion ("1. a) What is the capital of France?".data)).length <
      (collapseWs ("1. a) What is the capital of France?".data)).length :=
  ⟨by decide,
    (clean_strips_prefix_forms ("1. a) What is the capital of France?".data) (by decide)).1,
    (clean_strips_prefix_forms ("1. a) What is the capital of France?".data) (by decide)).2⟩

/-- C4: one extraction yields pairwise-distinct cleaned questions, each of
length greater than 15 (so empty or short normalized candidates never appear),
ordered by first candidate occurrence. -/
theorem extraction_output_invariant (text : List Char) :
    (extractQuestionsBasic text).Nodup ∧
    (extractQuestionsBasic text).Pairwise
      (fun a b => firstIdx (questionCandidates text) a <
        firstIdx (questionCandidates text) b) ∧
    ∀ q, q ∈ extractQuestionsBasic text →
      15 < q.length ∧ q ≠ [] ∧
        ∃ raw ∈ pyLines text, q = cleanQuestion (pyStrip raw) := by
  refine ⟨nodup_removeDuplicates _, pairwise_idx_removeDuplicates _, ?_⟩
  intro q hq
  rw [extractQuestionsBasic, mem_removeDuplicates, questionCandidates,
    List.mem_flatMap] at hq
  rcases hq with ⟨raw, hraw, hq⟩
  simp only [lineCandidates] at hq
  by_cases hlen : (pyStrip raw).length < 10
  · rw [if_pos hlen] at hq
    simp at hq
  · rw [if_neg hlen] at hq
    by_cases hm : matchesAnyPattern (pyStrip raw) = true
    · rw [if_pos hm] at hq
      by_cases hcl : cleanQuestion (pyStrip raw) ≠ [] ∧
          15 < (cleanQuestion (pyStrip raw)).length
      · rw [if_pos hcl, List.mem_singleton] at hq
        subst hq
        exact ⟨hcl.2, hcl.1, raw, hraw, rfl⟩
      · rw [if_neg hcl] at hq
        simp at hq
    · rw [if_neg hm] at hq
      simp at hq

/-- Witness for C4 at a concrete input. -/
theorem extraction_output_invariant_witness :
    ("What is the capital city of France?".data) ∈
      extractQuestionsBasic ("1. What is the capital city of France?".data) ∧
    (15 < ("What is the capital city of France?".data : List Char).length ∧
      ("What is the capital city of France?".data : List Char) ≠ [] ∧
      ∃ raw ∈ pyLines ("1. What is the capital city of France?".data),
        ("What is the capital city of France?".data : List Char) =
          cleanQuestion (pyStrip raw)) :=
  ⟨by decide,
    (extraction_output_invariant ("1. What is the capital city of France?".data)).2.2
      ("What is the capital city of France?".data) (by decide)⟩

/-! Normalization invariants for the idempotence of `_clean_question` (C5). -/

theorem normChk_nonspace_head {c : Char} (b : Bool) (r : List Char)
    (hc : pyIsSpace c = false) : normChk b (c :: r) = normChk false r := by
  simp [normChk, hc]

theorem normChk_true_head {c : Char} {r : List Char}
    (h : normChk true (c :: r) = true) : pyIsSpace c = false := by
  by_cases hc : pyIsSpace c = true
  · simp [normChk, hc] at h
  · simpa using hc

theorem normChk_true_ne_nil {t : List Char} (h : normChk true t = true) : t ≠ [] := by
  intro h0
  rw [h0] at h
  simp [normChk] at h

theorem normChk_skip_word (d : List Char) :
    ∀ w : List Char, (∀ c ∈ w, pyIsSpace c = false) →
      normChk false (w ++ d) = normChk false d := by
  intro w
  induction w with
  | nil => intro _; rfl
  | cons c w' ih =>
    intro hw
    rw [List.cons_append,
      normChk_nonspace_head false (w' ++ d) (hw c (List.mem_cons_self _ _))]
    exact ih (fun x hx => hw x (List.mem_cons_of_mem _ hx))

theorem normChk_word_false : ∀ w : List Char,
    (∀ c ∈ w, pyIsSpace c = false) → normChk false w = true := by
  intro w
  induction w with
  | nil => intro _; rfl
  | cons c w' ih =>
    intro hw
    rw [normChk_nonspace_head false w' (hw c (List.mem_cons_self _ _))]
    exact ih (fun x hx => hw x (List.mem_cons_of_mem _ hx))

theorem joinSpace_cons_of_ne (w : List Char) (ws : List (List Char)) (h : ws ≠ []) :
    joinSpace (w :: ws) = w ++ ' ' :: joinSpace ws := by
  cases ws with
  | nil => exact absurd rfl h
  | cons x xs => rfl

theorem normChk_joinSpace : ∀ ws : List (List Char),
    (∀ w ∈ ws, w ≠ [] ∧ ∀ c ∈ w, pyIsSpace c = false) → ws ≠ [] →
      normChk true (joinSpace ws) = true := by
  intro ws
  induction ws with
  | nil => intro _ h; exact absurd rfl h
  | cons w rest ih =>
    intro hws _
    rcases hws w (List.mem_cons_self _ _) with ⟨hwne, hwc⟩
    cases rest with
    | nil =>
      show normChk true w = true
      cases w with
      | nil => exact absurd rfl hwne
      | cons c w' =>
        rw [normChk_nonspace_head true w' (hwc c (List.mem_cons_self _ _))]
        exact normChk_word_false w' (fun x hx => hwc x (List.mem_cons_of_mem _ hx))
    | cons x xs =>
      rw [joinSpace_cons_of_ne w (x :: xs) (by simp)]
      cases w with
      | nil => exact absurd rfl hwne
      | cons c w' =>
        rw [List.cons_append,
          normChk_nonspace_head true (w' ++ ' ' :: joinSpace (x :: xs))
            (hwc c (List.mem_cons_self _ _)),
          normChk_skip_word _ w' (fun y hy => hwc y (List.mem_cons_of_mem _ hy))]
        have hsp : pyIsSpace ' ' = true := by decide
        simp only [normChk, hsp, if_true, Bool.not_false, Bool.true_and]
        simp only [beq_self_eq_true, Bool.true_and]
        exact ih (fun y hy => hws y (List.mem_cons_of_mem _ hy)) (by simp)

theorem normalized_collapse (s : List Char) : Normalized (collapseWs s) := by
  unfold collapseWs
  cases hws : pySplit s with
  | nil => exact Or.inl rfl
  | cons w rest =>
    right
    refine normChk_joinSpace (w :: rest) ?_ (by simp)
    intro x hx
    exact pySplit_words_aux s.length s (Nat.le_refl _) x (hws ▸ hx)

theorem normChk_suffix_exists : ∀ (pre : List Char) (u : List Char) (b : Bool),
    normChk b (pre ++ u) = true → ∃ b', normChk b' u = true := by
  intro pre
  induction pre with
  | nil => intro u b h; exact ⟨b, h⟩
  | cons c pre' ih =>
    intro u b h
    rw [List.cons_append] at h
    by_cases hc : pyIsSpace c = true
    · simp only [normChk, hc, if_true, Bool.and_eq_true] at h
      exact ih u true h.2
    · rw [normChk_nonspace_head b (pre' ++ u) (by simpa using hc)] at h
      exact ih u false h

theorem normChk_dropWhile : ∀ (u : List Char) (b : Bool),
    normChk b u = true →
      u.dropWhile pyIsSpace = [] ∨ normChk true (u.dropWhile pyIsSpace) = true := by
  intro u
  induction u with
  | nil => intro b _; exact Or.inl rfl
  | cons c u' ih =>
    intro b h
    by_cases hc : pyIsSpace c = true
    · rw [List.dropWhile_cons, if_pos hc]
      simp only [normChk, hc, if_true, Bool.and_eq_true] at h
      exact ih true h.2
    · have hc' : pyIsSpace c = false := by simpa using hc
      rw [List.dropWhile_cons, if_neg (by simp [hc'])]
      right
      rw [normChk_nonspace_head true u' hc']
      rw [normChk_nonspace_head b u' hc'] at h
      exact h

theorem normalized_of_strip_cases {f : List Char → List Char} {t : List Char}
    (hn : Normalized t)
    (hc : f t = t ∨ ∃ pre u, pre ≠ [] ∧ t = pre ++ u ∧ f t = u.dropWhile pyIsSpace) :
    Normalized (f t) := by
  rcases hc with hid | ⟨pre, u, hpre, ht, hres⟩
  · rw [hid]; exact hn
  · rcases hn with h0 | hchk
    · rw [h0] at ht
      have : u = [] := (List.append_eq_nil.mp ht.symm).2
      rw [hres, this]
      exact Or.inl rfl
    · rw [ht] at hchk
      rcases normChk_suffix_exists pre u true hchk with ⟨b', hb'⟩
      rw [hres]
      rcases normChk_dropWhile u b' hb' with h | h
      · exact Or.inl h
      · exact Or.inr h

theorem normChk_last : ∀ (w : List Char) (a : Char) (b : Bool),
    normChk b (w ++ [a]) = true → pyIsSpace a = false := by
  intro w
  induction w with
  | nil =>
    intro a b h
    by_cases ha : pyIsSpace a = true
    · simp only [List.nil_append, normChk, ha, if_true, Bool.and_eq_true] at h
      rcases h with ⟨_, h2⟩
      simp [normChk] at h2
    · simpa using ha
  | cons c w' ih =>
    intro a b h
    rw [List.cons_append] at h
    by_cases hc : pyIsSpace c = true
    · simp only [normChk, hc, if_true, Bool.and_eq_true] at h
      exact ih a true h.2
    · rw [normChk_nonspace_head b (w' ++ [a]) (by simpa using hc)] at h
      exact ih a false h

theorem pyStrip_of_normalized {t : List Char} (h : Normalized t) : pyStrip t = t := by
  rcases h with h0 | hchk
  · rw [h0]; rfl
  · have hhead : List.dropWhile pyIsSpace t = t := by
      cases t with
      | nil => rfl
      | cons c r =>
        rw [List.dropWhile_cons, if_neg (by simp [normChk_true_head hchk])]
    unfold pyStrip
    rw [hhead]
    cases hrev : t.reverse with
    | nil =>
      have : t = [] := by simpa using congrArg List.reverse hrev
      rw [this] at hchk
      simp [normChk] at hchk
    | cons a rr =>
      have hta : t = rr.reverse ++ [a] := by
        have := congrArg List.reverse hrev
        simpa using this
      have hlast : pyIsSpace a = false := normChk_last rr.reverse a true (hta ▸ hchk)
      rw [List.dropWhile_cons, if_neg (by simp [hlast])]
      rw [← hrev, List.reverse_reverse]

theorem dropWhile_head_false {α : Type} (p : α → Bool) :
    ∀ (l : List α) (e : α) (d : List α), l.dropWhile p = e :: d → p e = false := by
  intro l
  induction l with
  | nil => intro e d h; simp at h
  | cons c ls ih =>
    intro e d h
    rw [List.dropWhile_cons] at h
    by_cases hc : p c = true
    · rw [if_pos hc] at h
      exact ih e d h
    · rw [if_neg hc] at h
      injection h with h1 _
      rw [← h1]
      simpa using hc

theorem collapse_of_normChk_aux :
    ∀ (n : Nat) (t : List Char), t.length ≤ n → normChk true t = true →
      collapseWs t = t := by
  intro n
  induction n with
  | zero =>
    intro t ht _
    have h0 : t = [] := List.length_eq_zero.mp (Nat.le_zero.mp ht)
    rw [h0]
    rfl
  | succ n ih =>
    intro t ht h
    cases t with
    | nil => rfl
    | cons c rest =>
      have hc : pyIsSpace c = false := normChk_true_head h
      rw [collapseWs, pySplit_cons, if_neg (by simp [hc])]
      have hrest : rest = rest.takeWhile (fun d => !pyIsSpace d) ++
          rest.dropWhile (fun d => !pyIsSpace d) :=
        (List.takeWhile_append_dropWhile _ _).symm
      have hna : normChk false rest = true := by
        rw [normChk_nonspace_head true rest hc] at h
        exact h
      cases hdw : rest.dropWhile (fun d => !pyIsSpace d) with
      | nil =>
        have htw : rest.takeWhile (fun d => !pyIsSpace d) = rest := by
          rw [hdw] at hrest
          simpa using hrest.symm
        rw [pySplit_nil, htw]
        rfl
      | cons e d' =>
        have he : pyIsSpace e = true := by
          have := dropWhile_head_false _ rest e d' hdw
          simpa using this
        have h1 : normChk false (e :: d') = true := by
          rw [hrest, hdw] at hna
          rw [normChk_skip_word (e :: d') _
            (fun x hx => by simpa using List.mem_takeWhile_imp hx)] at hna
          exact hna
        have h2 : e = ' ' ∧ normChk true d' = true := by
          simp only [normChk, he, if_true, Bool.not_false, Bool.true_and,
            Bool.and_eq_true, beq_iff_eq] at h1
          exact h1
        have hd'ne : d' ≠ [] := normChk_true_ne_nil h2.2
        have hps : pySplit (e :: d') = pySplit d' := by
          rw [pySplit_cons, if_pos (by rw [h2.1]; decide)]
        have hpsne : pySplit d' ≠ [] := by
          cases d' with
          | nil => exact absurd rfl hd'ne
          | cons f d'' =>
            have hf : pyIsSpace f = false := normChk_true_head h2.2
            rw [pySplit_cons, if_neg (by simp [hf])]
            simp
        have hlen : d'.length ≤ n := by
          have e1 : rest.length =
              (rest.takeWhile (fun d => !pyIsSpace d)).length + (d'.length + 1) := by
            conv_lhs => rw [hrest]
            rw [hdw, List.length_append, List.length_cons]
          have e2 : (c :: rest).length ≤ n + 1 := ht
          rw [List.length_cons] at e2
          omega
        have hIH : joinSpace (pySplit d') = d' := by
          have := ih d' hlen h2.2
          rwa [collapseWs] at this
        rw [hps, joinSpace_cons_of_ne _ _ hpsne, hIH, List.cons_append]
        congr 1
        conv_rhs => rw [hrest, hdw]
        rw [h2.1]

theorem collapse_of_normalized {t : List Char} (h : Normalized t) :
    collapseWs t = t := by
  rcases h with h0 | hchk
  · rw [h0]; rfl
  · exact collapse_of_normChk_aux t.length t (Nat.le_refl _) hchk

/-- C5: when the normalized result of a string matches none of the four
prefix patterns, normalizing it again returns it unchanged. -/
theorem clean_idempotent_no_prefix (s : List Char)
    (h : hasPrefixForm (cleanQuestion s) = false) :
    cleanQuestion (cleanQuestion s) = cleanQuestion s := by
  have hn0 : Normalized (collapseWs s) := normalized_collapse s
  have hn1 : Normalized (stripNumPrefix (collapseWs s)) :=
    normalized_of_strip_cases hn0 (stripNumPrefix_cases _)
  have hn2 : Normalized (stripLetterPrefix (stripNumPrefix (collapseWs s))) :=
    normalized_of_strip_cases hn1 (stripLetterPrefix_cases _)
  have hn3 : Normalized (stripQuestionNumPrefix
      (stripLetterPrefix (stripNumPrefix (collapseWs s)))) :=
    normalized_of_strip_cases hn2 (stripQuestionNumPrefix_cases _)
  have hn4 : Normalized (stripQNumPrefix (stripQuestionNumPrefix
      (stripLetterPrefix (stripNumPrefix (collapseWs s))))) :=
    normalized_of_strip_cases hn3 (stripQNumPrefix_cases _)
  have hu : cleanQuestion s = stripQNumPrefix (stripQuestionNumPrefix
      (stripLetterPrefix (stripNumPrefix (collapseWs s)))) :=
    pyStrip_of_normalized hn4
  have hnu : Normalized (cleanQuestion s) := by
    rw [hu]
    exact hn4
  unfold hasPrefixForm at h
  simp only [Bool.or_eq_false_iff, decide_eq_false_iff_not, not_not] at h
  obtain ⟨⟨⟨e1, e2⟩, e3⟩, e4⟩ := h
  show pyStrip (stripQNumPrefix (stripQuestionNumPrefix
    (stripLetterPrefix (stripNumPrefix (collapseWs (cleanQuestion s)))))) = cleanQuestion s
  rw [collapse_of_normalized hnu, e1, e2, e3, e4]
  exact pyStrip_of_normalized hnu

/-- Witness for C5 at a concrete input. -/
theorem clean_idempotent_no_prefix_witness :
    hasPrefixForm (cleanQuestion ("1. What is the determinant of a 2x2 matrix?".data)) = false ∧
    cleanQuestion (cleanQuestion ("1. What is the determinant of a 2x2 matrix?".data)) =
      cleanQuestion ("1. What is the determinant of a 2x2 matrix?".data) :=
  ⟨by decide,
    clean_idempotent_no_prefix ("1. What is the determinant of a 2x2 matrix?".data) (by decide)⟩
